import Mathlib

/-!
Verification of `SALib/sample/fast_sampler.py` (`sample`).

Shallow embedding of the FAST sampler from `src/SALib/sample/fast_sampler.py`.
Python true division followed by `math.floor` is modelled as the integer floor
of exact rational division; NumPy float arrays holding integral values
(`omega`, `omega2`) are modelled as integer lists; the float matrix `X` is
modelled over the reals.  The sequential draws of `np.random.rand()` are
modelled by a function `rand : Nat -> Real` giving the n-th value consumed
from the uniform [0,1) source.
-/

namespace FastSampler

/-- Model of `np.linspace(a, b, num)` over exact rationals: `num` evenly spaced points
from `a` to `b` inclusive (for `num = 1`, NumPy returns just the start point). -/
def linspace (a b : ℚ) (num : ℕ) : List ℚ :=
  if num = 0 then []
  else if num = 1 then [a]
  else (List.range num).map (fun t : ℕ => a + (t : ℚ) * ((b - a) / ((num : ℚ) - 1)))

/-- The line `omega[0] = math.floor((N - 1) / (2 * M))` (true division, then floor). -/
def omega0 (N M : ℕ) : ℤ := ⌊((N : ℚ) - 1) / (2 * M)⌋

/-- The line `m = math.floor(omega[0] / (2 * M))`. -/
def mval (N M : ℕ) : ℤ := ⌊(omega0 N M : ℚ) / (2 * M)⌋

/-- The frequency vector `omega` of length `D` (for `D ≥ 1`):
`omega[0]` as above, then either `np.floor(np.linspace(1, m, D - 1))`
when `m >= D - 1`, or `np.arange(D - 1) % m + 1` otherwise. -/
def omegaVec (N M D : ℕ) : List ℤ :=
  if (D : ℤ) - 1 ≤ mval N M then
    omega0 N M :: (linspace 1 (mval N M : ℚ) (D - 1)).map (fun q => ⌊q⌋)
  else
    omega0 N M :: (List.range (D - 1)).map (fun t : ℕ => (t : ℤ) % mval N M + 1)

/-- NumPy fancy-index assignment `arr[idx] = vals`: set `arr[idx[k]] := vals[k]`
for each `k` in order. -/
def scatter (base : List ℤ) (ps : List (ℕ × ℤ)) : List ℤ :=
  ps.foldl (fun acc p => acc.set p.1 p.2) base

/-- The index list `idx = list(range(i)) + list(range(i + 1, D))`. -/
def idxList (D i : ℕ) : List ℕ :=
  List.range i ++ List.range' (i + 1) (D - (i + 1))

/-- The rotated frequency vector `omega2` used in sweep block `i`:
`omega2[i] = omega[0]; omega2[idx] = omega[1:]`.  The Python code reuses one
array across blocks, but every block overwrites all `D` positions (`i` plus the
`D - 1` positions of `idx`), so each block's array is as built here from any
starting contents; we start from the `np.zeros([D])` of the first block. -/
def omega2Vec (N M D i : ℕ) : List ℤ :=
  scatter (((List.replicate D (0 : ℤ)).set i ((omegaVec N M D).headD 0)))
    ((idxList D i).zip (omegaVec N M D).tail)

theorem linspace_length (a b : ℚ) (num : ℕ) : (linspace a b num).length = num := by
  unfold linspace
  split
  · simp [*]
  · split
    · simp [*]
    · simp

theorem omegaVec_length (N M D : ℕ) (hD : 1 ≤ D) : (omegaVec N M D).length = D := by
  unfold omegaVec
  split <;> simp [linspace_length] <;> omega

theorem idxList_length (D i : ℕ) (hi : i < D) : (idxList D i).length = D - 1 := by
  unfold idxList
  simp
  omega

theorem getD_set_ne {l : List ℤ} {i j : ℕ} {v d : ℤ} (h : i ≠ j) :
    (l.set i v).getD j d = l.getD j d := by
  simp [List.getD_eq_getD_get?, List.get?_eq_getElem?, List.getElem?_set_ne h]

theorem getD_set_self {l : List ℤ} {i : ℕ} {v d : ℤ} (h : i < l.length) :
    (l.set i v).getD i d = v := by
  rw [List.getD_eq_getElem _ _ (by simpa : i < (l.set i v).length)]
  exact List.getElem_set_self (by simpa)

theorem scatter_getD_not_mem (ps : List (ℕ × ℤ)) (base : List ℤ) (j : ℕ)
    (h : ∀ p ∈ ps, p.1 ≠ j) :
    (scatter base ps).getD j 0 = base.getD j 0 := by
  induction ps generalizing base with
  | nil => rfl
  | cons a t ih =>
    have ha : a.1 ≠ j := h a (List.mem_cons_self a t)
    have ht : ∀ p ∈ t, p.1 ≠ j := fun p hp => h p (List.mem_cons_of_mem a hp)
    calc (scatter base (a :: t)).getD j 0
        = (scatter (base.set a.1 a.2) t).getD j 0 := rfl
      _ = (base.set a.1 a.2).getD j 0 := ih (base.set a.1 a.2) ht
      _ = base.getD j 0 := getD_set_ne ha

theorem scatter_getD_mem (ps : List (ℕ × ℤ)) (base : List ℤ) (j : ℕ) (v : ℤ)
    (hnd : (ps.map Prod.fst).Nodup) (hmem : (j, v) ∈ ps) (hlen : j < base.length) :
    (scatter base ps).getD j 0 = v := by
  induction ps generalizing base with
  | nil => exact absurd hmem (List.not_mem_nil _)
  | cons a t ih =>
    rcases List.mem_cons.mp hmem with heq | hmemt
    · have hj : a.1 = j := by rw [← heq]
      have hv : a.2 = v := by rw [← heq]
      have hnotin : ∀ p ∈ t, p.1 ≠ j := by
        intro p hp
        have : a.1 ∉ t.map Prod.fst := (List.nodup_cons.mp hnd).1
        intro hpj
        exact this (hj ▸ hpj ▸ List.mem_map_of_mem Prod.fst hp)
      calc (scatter base (a :: t)).getD j 0
          = (scatter (base.set a.1 a.2) t).getD j 0 := rfl
        _ = (base.set a.1 a.2).getD j 0 := scatter_getD_not_mem t _ j hnotin
        _ = v := by rw [hj, hv]; exact getD_set_self hlen
    · have hnd' : (t.map Prod.fst).Nodup := (List.nodup_cons.mp hnd).2
      calc (scatter base (a :: t)).getD j 0
          = (scatter (base.set a.1 a.2) t).getD j 0 := rfl
        _ = v := ih (base.set a.1 a.2) hnd' hmemt (by simpa using hlen)

theorem omegaVec_getD_zero (N M D : ℕ) : (omegaVec N M D).getD 0 0 = omega0 N M := by
  unfold omegaVec
  split <;> rfl

theorem omegaVec_headD (N M D : ℕ) : (omegaVec N M D).headD 0 = omega0 N M := by
  unfold omegaVec
  split <;> rfl

theorem omegaVec_tail_getD (N M D t : ℕ) :
    (omegaVec N M D).tail.getD t 0 = (omegaVec N M D).getD (t + 1) 0 := by
  unfold omegaVec
  split <;> rfl

theorem idxList_nodup (D i : ℕ) : (idxList D i).Nodup := by
  unfold idxList
  refine List.Nodup.append (List.nodup_range i) (List.nodup_range' _ _ 1 (by norm_num)) ?_
  intro x hx hx'
  have h1 : x < i := List.mem_range.mp hx
  have h2 : i + 1 ≤ x := (List.mem_range'_1.mp hx').1
  omega

theorem idxList_not_mem_self (D i : ℕ) : i ∉ idxList D i := by
  unfold idxList
  intro h
  rcases List.mem_append.mp h with h1 | h2
  · exact absurd (List.mem_range.mp h1) (lt_irrefl i)
  · have := (List.mem_range'_1.mp h2).1
    omega

theorem idxList_getElem_lt (D i p : ℕ) (hp : p < i) (h : p < (idxList D i).length) :
    (idxList D i)[p] = p := by
  unfold idxList at h ⊢
  rw [List.getElem_append_left (by simpa using hp)]
  exact List.getElem_range _ _

theorem idxList_getElem_ge (D i p : ℕ) (hp : i ≤ p) (h : p < (idxList D i).length) :
    (idxList D i)[p] = p + 1 := by
  unfold idxList at h ⊢
  have hlr : (List.range i).length = i := List.length_range i
  rw [List.getElem_append_right (by simpa using hp)]
  rw [List.getElem_range']
  simp [hlr]
  omega

/-- Characterization of the rotated frequency vector: block `i` has the base
frequency `omega[0]` at position `i` and the complementary frequencies
`omega[1..D-1]` in order at the remaining positions. -/
theorem omega2Vec_getD (N M D i j : ℕ) (hi : i < D) (hj : j < D) :
    (omega2Vec N M D i).getD j 0 =
      if j = i then (omegaVec N M D).getD 0 0
      else if j < i then (omegaVec N M D).getD (j + 1) 0
      else (omegaVec N M D).getD j 0 := by
  have hD : 1 ≤ D := Nat.one_le_of_lt (Nat.lt_of_le_of_lt (Nat.zero_le i) hi)
  have hω : (omegaVec N M D).length = D := omegaVec_length N M D hD
  have htail : (omegaVec N M D).tail.length = D - 1 := by
    rw [List.length_tail, hω]
  have hidx : (idxList D i).length = D - 1 := idxList_length D i hi
  have hbase : (((List.replicate D (0 : ℤ)).set i ((omegaVec N M D).headD 0))).length = D := by
    simp
  have hzlen : ((idxList D i).zip (omegaVec N M D).tail).length = D - 1 := by
    rw [List.length_zip, hidx, htail, min_self]
  have hfst : ((idxList D i).zip (omegaVec N M D).tail).map Prod.fst = idxList D i :=
    List.map_fst_zip _ _ (by omega)
  unfold omega2Vec
  by_cases hji : j = i
  · subst hji
    rw [scatter_getD_not_mem]
    · rw [getD_set_self (by simpa using hi), omegaVec_headD, omegaVec_getD_zero]
      simp
    · intro p hp hpj
      have : p.1 ∈ idxList D j := by
        rw [← hfst]
        exact List.mem_map_of_mem Prod.fst hp
      exact idxList_not_mem_self D j (hpj ▸ this)
  · have hjlt : j < (((List.replicate D (0 : ℤ)).set i ((omegaVec N M D).headD 0))).length := by
      rw [hbase]; exact hj
    have hnd : (((idxList D i).zip (omegaVec N M D).tail).map Prod.fst).Nodup := by
      rw [hfst]; exact idxList_nodup D i
    rcases Nat.lt_or_ge j i with hlt | hge
    · have hpz : j < ((idxList D i).zip (omegaVec N M D).tail).length := by omega
      have hjidx : j < (idxList D i).length := by omega
      have hjtail : j < (omegaVec N M D).tail.length := by omega
      have hpair : ((idxList D i).zip (omegaVec N M D).tail)[j] =
          ((idxList D i)[j], (omegaVec N M D).tail[j]) := List.getElem_zip
      have hidxj : (idxList D i)[j] = j := idxList_getElem_lt D i j hlt hjidx
      have hvj : (omegaVec N M D).tail[j] = (omegaVec N M D).getD (j + 1) 0 := by
        rw [← omegaVec_tail_getD]
        exact (List.getD_eq_getElem _ _ hjtail).symm
      have hmem : (j, (omegaVec N M D).getD (j + 1) 0) ∈
          (idxList D i).zip (omegaVec N M D).tail := by
        have h0 := List.getElem_mem hpz
        rw [hpair, hidxj, hvj] at h0
        exact h0
      rw [scatter_getD_mem _ _ _ _ hnd hmem hjlt]
      simp [hji, hlt]
    · have hgt : i < j := Nat.lt_of_le_of_ne hge (fun h => hji h.symm)
      have hpz : j - 1 < ((idxList D i).zip (omegaVec N M D).tail).length := by omega
      have hjidx : j - 1 < (idxList D i).length := by omega
      have hjtail : j - 1 < (omegaVec N M D).tail.length := by omega
      have hpair : ((idxList D i).zip (omegaVec N M D).tail)[j - 1] =
          ((idxList D i)[j - 1], (omegaVec N M D).tail[j - 1]) := List.getElem_zip
      have hidxj : (idxList D i)[j - 1] = j := by
        rw [idxList_getElem_ge D i (j - 1) (by omega) hjidx]
        omega
      have hvj : (omegaVec N M D).tail[j - 1] = (omegaVec N M D).getD j 0 := by
        have h1 : (omegaVec N M D).tail[j - 1] =
            (omegaVec N M D).tail.getD (j - 1) 0 :=
          (List.getD_eq_getElem _ _ hjtail).symm
        rw [h1, omegaVec_tail_getD]
        congr 1
        omega
      have hmem : (j, (omegaVec N M D).getD j 0) ∈
          (idxList D i).zip (omegaVec N M D).tail := by
        have h0 := List.getElem_mem hpz
        rw [hpair, hidxj, hvj] at h0
        exact h0
      rw [scatter_getD_mem _ _ _ _ hnd hmem hjlt]
      simp [hji, Nat.not_lt.mpr hge]

/-- The discretized search-curve parameter
`s = (2 * math.pi / N) * np.arange(N)`, so `s[k] = (2 pi / N) * k`. -/
noncomputable def sArr (N k : ℕ) : ℝ := 2 * Real.pi / N * k

/-- The phase `phi = 2 * math.pi * np.random.rand()`, drawn once per sweep block, in
block order: block `i` consumes the `i`-th value of the random stream. -/
noncomputable def phiOf (rand : ℕ → ℝ) (i : ℕ) : ℝ := 2 * Real.pi * rand i

/-- The transform `g = 0.5 + (1 / math.pi) * np.arcsin(np.sin(omega2[j] * s + phi))`,
evaluated at sample point `k`. -/
noncomputable def gval (w : ℤ) (phi : ℝ) (N k : ℕ) : ℝ :=
  0.5 + 1 / Real.pi * Real.arcsin (Real.sin ((w : ℝ) * sArr N k + phi))

/-- The unit-hypercube matrix `X` of shape `[N * D, D]`.  The Python code
fills `X[l, j] = g[k]` for `l = range(i * N, (i + 1) * N)` over blocks
`i = 0..D-1` and columns `j = 0..D-1`; every entry is written exactly once,
row `r` belonging to block `i = r / N` with in-block index `k = r % N`. -/
noncomputable def fastX (N M D : ℕ) (rand : ℕ → ℝ) : List (List ℝ) :=
  (List.range (N * D)).map (fun r =>
    (List.range D).map (fun j =>
      gval ((omega2Vec N M D (r / N)).getD j 0) (phiOf rand (r / N)) N (r % N)))

theorem fastX_length (N M D : ℕ) (rand : ℕ → ℝ) : (fastX N M D rand).length = N * D := by
  simp [fastX]

theorem fastX_row_length (N M D : ℕ) (rand : ℕ → ℝ) :
    ∀ row ∈ fastX N M D rand, row.length = D := by
  intro row hrow
  rcases List.mem_map.mp hrow with ⟨r, _, hrw⟩
  rw [← hrw]
  simp

theorem getD_map_range {α : Type _} (f : ℕ → α) (n i : ℕ) (d : α) (h : i < n) :
    ((List.range n).map f).getD i d = f i := by
  rw [List.getD_eq_getElem _ _ (by simpa using h), List.getElem_map, List.getElem_range]

theorem fastX_getD (N M D : ℕ) (rand : ℕ → ℝ) (r j : ℕ) (hr : r < N * D) (hj : j < D) :
    ((fastX N M D rand).getD r []).getD j 0 =
      gval ((omega2Vec N M D (r / N)).getD j 0) (phiOf rand (r / N)) N (r % N) := by
  unfold fastX
  rw [getD_map_range _ _ _ _ hr, getD_map_range _ _ _ _ hj]

theorem gval_mem_Icc (w : ℤ) (phi : ℝ) (N k : ℕ) : gval w phi N k ∈ Set.Icc (0 : ℝ) 1 := by
  unfold gval
  have hpi : (0 : ℝ) < Real.pi := Real.pi_pos
  have hinv : (0 : ℝ) < 1 / Real.pi := by positivity
  set a := Real.arcsin (Real.sin ((w : ℝ) * sArr N k + phi)) with ha
  have h1 : -(Real.pi / 2) ≤ a := Real.neg_pi_div_two_le_arcsin _
  have h2 : a ≤ Real.pi / 2 := Real.arcsin_le_pi_div_two _
  have hlo : -(1 / 2 : ℝ) ≤ 1 / Real.pi * a := by
    have := mul_le_mul_of_nonneg_left h1 (le_of_lt hinv)
    have heq : 1 / Real.pi * -(Real.pi / 2) = -(1 / 2 : ℝ) := by
      field_simp
    linarith [heq ▸ this]
  have hhi : 1 / Real.pi * a ≤ 1 / 2 := by
    have := mul_le_mul_of_nonneg_left h2 (le_of_lt hinv)
    have heq : 1 / Real.pi * (Real.pi / 2) = (1 / 2 : ℝ) := by
      field_simp
    linarith [heq ▸ this]
  constructor
  · linarith
  · linarith

/-- The problem mapping, restricted to the keys `sample` reads: `num_vars`,
`bounds`, and the optional `dists`.  To distinguish a missing key from a key
present with Python `None`, `dists` is `none` when the key is absent,
`some none` when it is present as `None`, and `some (some l)` when it is a
sequence `l` of distribution tags. -/
structure Problem where
  num_vars : ℕ
  bounds : List (ℝ × ℝ)
  dists : Option (Option (List String))

/-- Truthiness of `problem.get('dists')`: falsy when the key is absent,
holds `None`, or holds an empty sequence. -/
def distsFalsy : Option (Option (List String)) → Bool
  | none => true
  | some none => true
  | some (some l) => l.isEmpty

/-- The sequence stored under `dists` (as used on the truthy branch). -/
def getDists : Option (Option (List String)) → List String
  | some (some l) => l
  | some none => []
  | none => []

/-- Modelled from the spec: `scale_samples(X, bounds)` from `SALib.util`
(whose source is not part of this repository snapshot) linearly rescales each
column of `X` from [0,1] to the corresponding `[lower, upper]` pair of
`bounds`; the code applies it in place and returns `X`, modelled here as
returning the rescaled matrix. -/
def scale_samples (X : List (List ℝ)) (bounds : List (ℝ × ℝ)) : List (List ℝ) :=
  X.map (fun row => List.zipWith (fun x b => b.1 + x * (b.2 - b.1)) row bounds)

/-- The error outcomes of `sample`: the `ValueError` raised by the `N <= 4M^2`
guard, and an error propagated out of the external `checkBounds`. -/
inductive SampleError where
  | invalidSize : SampleError
  | boundsError : String → SampleError
deriving DecidableEq

/-- The function `sample(problem, N, M=4)` from `fast_sampler.py`.  The external
collaborators `checkBounds`, `limit_samples` and `nonuniform_scale_samples`
are imported from `SALib.util`, whose source is not part of this repository
snapshot; they are taken here as parameters (`cb`, `ls`, `nss`), with
`cb problem` returning the pair `(lower_bound, upper_bound)` or an error.
The uniform-scaling path uses the spec-modelled `scale_samples` above. -/
noncomputable def sampleWith
    (cb : Problem → Except String (List ℝ × List ℝ))
    (ls : List (List ℝ) → List ℝ → List ℝ → List String → List (List ℝ))
    (nss : List (List ℝ) → List (ℝ × ℝ) → List String → List (List ℝ))
    (problem : Problem) (N M : ℕ) (rand : ℕ → ℝ) : Except SampleError (List (List ℝ)) :=
  if N ≤ 4 * M ^ 2 then Except.error SampleError.invalidSize
  else
    let D := problem.num_vars
    let X := fastX N M D rand
    if distsFalsy problem.dists then
      Except.ok (scale_samples X problem.bounds)
    else
      match cb problem with
      | Except.error msg => Except.error (SampleError.boundsError msg)
      | Except.ok bnds =>
        let limited_X := ls X bnds.2 bnds.1 (getDists problem.dists)
        Except.ok (nss limited_X problem.bounds (getDists problem.dists))

theorem omega0_eq_natDiv (N M : ℕ) (hN : 1 ≤ N) :
    omega0 N M = (((N - 1) / (2 * M) : ℕ) : ℤ) := by
  unfold omega0
  have h1 : ((N : ℚ) - 1) = (((N - 1 : ℕ) : ℤ) : ℚ) := by
    push_cast [Nat.cast_sub hN]
    ring
  have h2 : (2 * (M : ℚ)) = (((2 * M : ℕ) : ℕ) : ℚ) := by
    push_cast
    ring
  rw [h1, h2, Rat.floor_intCast_div_natCast]
  exact (Int.ofNat_ediv _ _).symm

theorem mval_eq_natDiv (N M : ℕ) (hN : 1 ≤ N) :
    mval N M = ((((N - 1) / (2 * M)) / (2 * M) : ℕ) : ℤ) := by
  unfold mval
  rw [omega0_eq_natDiv N M hN]
  have h2 : (2 * (M : ℚ)) = (((2 * M : ℕ) : ℕ) : ℚ) := by
    push_cast
    ring
  rw [h2, Rat.floor_intCast_div_natCast]
  exact (Int.ofNat_ediv _ _).symm

theorem omega0_ge_twoM (N M : ℕ) (hM : 1 ≤ M) (hN : 4 * M ^ 2 < N) :
    2 * (M : ℤ) ≤ omega0 N M := by
  rw [omega0_eq_natDiv N M (by nlinarith)]
  have h : 2 * M ≤ (N - 1) / (2 * M) := by
    rw [Nat.le_div_iff_mul_le (by omega)]
    have : 4 * M ^ 2 = 2 * M * (2 * M) := by ring
    omega
  exact_mod_cast h

theorem mval_ge_one (N M : ℕ) (hM : 1 ≤ M) (hN : 4 * M ^ 2 < N) :
    1 ≤ mval N M := by
  rw [mval_eq_natDiv N M (by nlinarith)]
  have h2M : 2 * M ≤ (N - 1) / (2 * M) := by
    rw [Nat.le_div_iff_mul_le (by omega)]
    have : 4 * M ^ 2 = 2 * M * (2 * M) := by ring
    omega
  have h : 1 ≤ ((N - 1) / (2 * M)) / (2 * M) := by
    rw [Nat.le_div_iff_mul_le (by omega)]
    omega
  exact_mod_cast h

theorem linspace_floor_ge_one (m : ℚ) (num : ℕ) (hm : 1 ≤ m) :
    ∀ q ∈ linspace 1 m num, 1 ≤ ⌊q⌋ := by
  intro q hq
  unfold linspace at hq
  split at hq
  · exact absurd hq (List.not_mem_nil q)
  split at hq
  · rw [List.mem_singleton] at hq
    subst hq
    norm_num
  · rcases List.mem_map.mp hq with ⟨t, ht, hqt⟩
    have hnum : 2 ≤ num := by omega
    have hq1 : (1 : ℚ) ≤ q := by
      rw [← hqt]
      have h1 : (0 : ℚ) ≤ (t : ℚ) := by positivity
      have h2 : (0 : ℚ) ≤ m - 1 := by linarith
      have h3 : (0 : ℚ) < (num : ℚ) - 1 := by
        have : (2 : ℚ) ≤ (num : ℚ) := by exact_mod_cast hnum
        linarith
      have h4 : (0 : ℚ) ≤ (t : ℚ) * ((m - 1) / ((num : ℚ) - 1)) := by positivity
      linarith
    rw [Int.le_floor]
    exact_mod_cast hq1

theorem omegaVec_getD_pos (N M D : ℕ) (hM : 1 ≤ M) (hN : 4 * M ^ 2 < N) (j : ℕ) (hj : j < D) :
    1 ≤ (omegaVec N M D).getD j 0 := by
  cases j with
  | zero =>
    rw [omegaVec_getD_zero]
    have := omega0_ge_twoM N M hM hN
    have : (1 : ℤ) ≤ 2 * (M : ℤ) := by
      have : (1 : ℤ) ≤ (M : ℤ) := by exact_mod_cast hM
      linarith
    linarith [omega0_ge_twoM N M hM hN]
  | succ t =>
    rw [← omegaVec_tail_getD]
    have hm1 : 1 ≤ mval N M := mval_ge_one N M hM hN
    have hD : 1 ≤ D := by omega
    have htlen : (omegaVec N M D).tail.length = D - 1 := by
      rw [List.length_tail, omegaVec_length N M D hD]
    have ht : t < D - 1 := by omega
    unfold omegaVec
    split
    · show ((linspace 1 (mval N M : ℚ) (D - 1)).map (fun q => ⌊q⌋)).getD t 0 ≥ 1
      have hlen : t < ((linspace 1 (mval N M : ℚ) (D - 1)).map (fun q => ⌊q⌋)).length := by
        rw [List.length_map, linspace_length]
        exact ht
      rw [List.getD_eq_getElem _ _ hlen, List.getElem_map]
      apply linspace_floor_ge_one (mval N M : ℚ) (D - 1) (by exact_mod_cast hm1)
      exact List.getElem_mem _
    · show (((List.range (D - 1)).map (fun t : ℕ => (t : ℤ) % mval N M + 1))).getD t 0 ≥ 1
      rw [getD_map_range _ _ _ _ ht]
      have h0 : 0 ≤ (t : ℤ) % mval N M := Int.emod_nonneg _ (by omega)
      omega

theorem linspace_getElem (a b : ℚ) (num t : ℕ) (ht : t < num)
    (h : t < (linspace a b num).length) :
    (linspace a b num)[t] =
      if num = 1 then a else a + (t : ℚ) * ((b - a) / ((num : ℚ) - 1)) := by
  unfold linspace at h ⊢
  split_ifs at h ⊢ with h0 h1
  · omega
  · have ht0 : t = 0 := by omega
    subst ht0
    simp
  · rw [List.getElem_map, List.getElem_range]

theorem omegaVec_getD_succ (N M D t : ℕ) (ht : t < D - 1) :
    (omegaVec N M D).getD (t + 1) 0 =
      if (D : ℤ) - 1 ≤ mval N M then
        (if D - 1 = 1 then 1
         else ⌊(1 : ℚ) + (t : ℚ) * (((mval N M : ℚ) - 1) / (((D - 1 : ℕ) : ℚ) - 1))⌋)
      else (t : ℤ) % mval N M + 1 := by
  unfold omegaVec
  split
  · rw [List.getD_cons_succ]
    have hlen : t < ((linspace 1 (mval N M : ℚ) (D - 1)).map (fun q => ⌊q⌋)).length := by
      rw [List.length_map, linspace_length]
      exact ht
    rw [List.getD_eq_getElem _ _ hlen, List.getElem_map,
      linspace_getElem _ _ _ _ ht (by rw [linspace_length]; exact ht)]
    split
    · norm_num
    · norm_num
  · rw [List.getD_cons_succ, getD_map_range _ _ _ _ ht]

/-- The frequency assignment exactly as the specification words it, for
comparison with the code-derived `omegaVec`: position 0 holds
floor((N-1)/(2M)); with m = floor(omega[0]/(2M)), if m ≥ D-1 the positions
1..D-1 hold the floors of D-1 evenly spaced points of a linear sequence from
1 to m (a single point degenerating to the start point 1), and otherwise
position 1+t holds (t mod m) + 1. -/
def specFreq (N M D j : ℕ) : ℤ :=
  let w0 : ℕ := (N - 1) / (2 * M)
  let m : ℕ := w0 / (2 * M)
  if j = 0 then (w0 : ℤ)
  else if D - 1 ≤ m then
    (if D - 1 = 1 then 1
     else ⌊(1 : ℚ) + ((j - 1 : ℕ) : ℚ) * (((m : ℚ) - 1) / (((D - 1 : ℕ) : ℚ) - 1))⌋)
  else ((j - 1 : ℕ) : ℤ) % (m : ℤ) + 1

/-- Claim C2: for every N, M, D with N > 4M² (M, D ≥ 1), the frequency vector
computed by the code agrees at every position with the spec's formula:
omega[0] = floor((N-1)/(2M)); with m = floor(omega[0]/(2M)), if m ≥ D-1 the
tail holds the floors of D-1 evenly spaced points of a linear sequence from
1 to m, else position 1+t holds (t mod m) + 1. -/
theorem claim2_frequency_assignment (N M D j : ℕ) (hM : 1 ≤ M) (hN : 4 * M ^ 2 < N)
    (hD : 1 ≤ D) (hj : j < D) :
    (omegaVec N M D).getD j 0 = specFreq N M D j := by
  have hN1 : 1 ≤ N := by nlinarith
  have hm : mval N M = ((((N - 1) / (2 * M)) / (2 * M) : ℕ) : ℤ) := mval_eq_natDiv N M hN1
  have hcond : ((D : ℤ) - 1 ≤ mval N M) ↔ (D - 1 ≤ ((N - 1) / (2 * M)) / (2 * M)) := by
    rw [hm]
    omega
  cases j with
  | zero =>
    rw [omegaVec_getD_zero, omega0_eq_natDiv N M hN1]
    unfold specFreq
    simp
  | succ t =>
    have ht : t < D - 1 := by omega
    rw [omegaVec_getD_succ N M D t ht]
    unfold specFreq
    simp only [Nat.succ_ne_zero, if_false, Nat.add_sub_cancel]
    by_cases hc : (D : ℤ) - 1 ≤ mval N M
    · rw [if_pos hc, if_pos (hcond.mp hc), hm]
      norm_cast
    · rw [if_neg hc, if_neg (fun h => hc (hcond.mpr h)), hm]

/-- Witness for C2 at N = 100, M = 4, D = 3, j = 1. -/
theorem claim2_frequency_assignment_witness :
    (omegaVec 100 4 3).getD 1 0 = specFreq 100 4 3 1 :=
  claim2_frequency_assignment 100 4 3 1 (by decide) (by decide) (by decide) (by decide)

/-- Claim C6: in sweep block `i`, the rotated assignment gives position `i` the base
frequency `omega[0]`, and the remaining positions, in increasing order,
receive `omega[1], ..., omega[D-1]` in order: position `j < i` gets
`omega[j+1]` and position `j > i` gets `omega[j]`. -/
theorem claim6_rotated_assignment (N M D i j : ℕ) (hi : i < D) (hj : j < D) :
    (omega2Vec N M D i).getD j 0 =
      if j = i then (omegaVec N M D).getD 0 0
      else if j < i then (omegaVec N M D).getD (j + 1) 0
      else (omegaVec N M D).getD j 0 :=
  omega2Vec_getD N M D i j hi hj

/-- Witness for C6 at N = 100, M = 4, D = 3, block i = 1, position j = 2. -/
theorem claim6_rotated_assignment_witness :
    (omega2Vec 100 4 3 1).getD 2 0 =
      if 2 = 1 then (omegaVec 100 4 3).getD 0 0
      else if 2 < 1 then (omegaVec 100 4 3).getD 3 0
      else (omegaVec 100 4 3).getD 2 0 :=
  claim6_rotated_assignment 100 4 3 1 2 (by decide) (by decide)

/-- Claim C7: the two concrete frequency assignments the spec pins down:
for N = 100, M = 4, D = 3, omega = [12, 1, 1] with omega[0] = 12 and m = 1
(cyclic branch); for N = 4100, M = 4, D = 10, omega[0] = 512, m = 64, and the
tail is the floors of 9 evenly spaced points of a linear sequence from 1 to
64, namely [1, 8, 16, 24, 32, 40, 48, 56, 64]. -/
theorem claim7_concrete_assignments :
    omega0 100 4 = 12 ∧ mval 100 4 = 1 ∧ omegaVec 100 4 3 = [12, 1, 1] ∧
    omega0 4100 4 = 512 ∧ mval 4100 4 = 64 ∧
    omegaVec 4100 4 10 = 512 :: ((linspace 1 64 9).map fun q => ⌊q⌋) ∧
    omegaVec 4100 4 10 = [512, 1, 8, 16, 24, 32, 40, 48, 56, 64] := by
  have h0 : omega0 100 4 = 12 := by unfold omega0; norm_num [Int.floor_eq_iff]
  have hm : mval 100 4 = 1 := by unfold mval; rw [h0]; norm_num [Int.floor_eq_iff]
  have h0b : omega0 4100 4 = 512 := by unfold omega0; norm_num [Int.floor_eq_iff]
  have hmb : mval 4100 4 = 64 := by unfold mval; rw [h0b]; norm_num [Int.floor_eq_iff]
  refine ⟨h0, hm, ?_, h0b, hmb, ?_, ?_⟩
  · unfold omegaVec
    rw [hm, h0]
    norm_num [List.range_succ]
  · unfold omegaVec
    rw [hmb, h0b]
    norm_num
  · unfold omegaVec
    rw [hmb, h0b]
    norm_num [linspace, List.range_succ, Int.floor_eq_iff]

/-- Claim C9 (implicit safety): under the checked precondition N > 4M² (M ≥ 1),
m ≥ 1 (so the cyclic branch never takes a modulo by zero) and every assigned
frequency, in `omega` and in every block's rotated `omega2`, is at least 1 —
the zero-frequency degenerate case is unreachable for validated inputs. -/
theorem claim9_no_zero_frequency (N M D : ℕ) (hM : 1 ≤ M) (hN : 4 * M ^ 2 < N) :
    1 ≤ mval N M ∧
    (∀ j, j < D → 1 ≤ (omegaVec N M D).getD j 0) ∧
    (∀ i j, i < D → j < D → 1 ≤ (omega2Vec N M D i).getD j 0) := by
  refine ⟨mval_ge_one N M hM hN, fun j hj => omegaVec_getD_pos N M D hM hN j hj, ?_⟩
  intro i j hi hj
  rw [omega2Vec_getD N M D i j hi hj]
  by_cases h1 : j = i
  · rw [if_pos h1]
    exact omegaVec_getD_pos N M D hM hN 0 (by omega)
  · rw [if_neg h1]
    by_cases h2 : j < i
    · rw [if_pos h2]
      exact omegaVec_getD_pos N M D hM hN (j + 1) (by omega)
    · rw [if_neg h2]
      exact omegaVec_getD_pos N M D hM hN j hj

/-- Witness for C9 at N = 100, M = 4, D = 3. -/
theorem claim9_no_zero_frequency_witness :
    1 ≤ mval 100 4 ∧
    (∀ j, j < 3 → 1 ≤ (omegaVec 100 4 3).getD j 0) ∧
    (∀ i j, i < 3 → j < 3 → 1 ≤ (omega2Vec 100 4 3 i).getD j 0) :=
  claim9_no_zero_frequency 100 4 3 (by decide) (by decide)

theorem blockRow_div (N i k : ℕ) (hN : 0 < N) (hk : k < N) : (i * N + k) / N = i := by
  have h : i * N + k = k + N * i := by ring
  rw [h, Nat.add_mul_div_left _ _ hN, Nat.div_eq_of_lt hk, Nat.zero_add]

theorem blockRow_mod (N i k : ℕ) (hk : k < N) : (i * N + k) % N = k := by
  have h : i * N + k = k + i * N := by ring
  rw [h, Nat.add_mul_mod_self_right, Nat.mod_eq_of_lt hk]

theorem blockRow_lt (N D i k : ℕ) (hi : i < D) (hk : k < N) : i * N + k < N * D := by
  have h1 : i * N + k < (i + 1) * N := by
    rw [Nat.add_mul, Nat.one_mul]
    omega
  have h2 : (i + 1) * N ≤ D * N := Nat.mul_le_mul_right N hi
  rw [Nat.mul_comm N D]
  exact Nat.lt_of_lt_of_le h1 h2

/-- Claim C1: for valid input, the entry of the unit-hypercube matrix at row
`i * N + k` (block `i`, in-block index `k`) and column `j` is the FAST
search-curve transform `0.5 + (1/pi) * arcsin(sin(omega2[j] * s[k] + phi_i))`
with `s[k] = (2 pi / N) * k` and `phi_i` equal to `2 pi` times the `i`-th
value consumed from the uniform random source (one draw per block, in block
order, shared by the block's columns). -/
theorem claim1_search_curve_transform (N M D : ℕ) (rand : ℕ → ℝ) (i k j : ℕ)
    (hM : 1 ≤ M) (hN : 4 * M ^ 2 < N) (hi : i < D) (hk : k < N) (hj : j < D) :
    ((fastX N M D rand).getD (i * N + k) []).getD j 0 =
      0.5 + 1 / Real.pi * Real.arcsin (Real.sin
        (((omega2Vec N M D i).getD j 0 : ℝ) * (2 * Real.pi / (N : ℝ) * (k : ℝ)) +
          2 * Real.pi * rand i)) := by
  have hN0 : 0 < N := by nlinarith
  rw [fastX_getD N M D rand _ j (blockRow_lt N D i k hi hk) hj,
    blockRow_div N i k hN0 hk, blockRow_mod N i k hk]
  rfl

/-- Witness for C1 at N = 65, M = 4, D = 1, i = 0, k = 3, j = 0, with the
constant-zero random source. -/
theorem claim1_search_curve_transform_witness :
    ((fastX 65 4 1 (fun _ => (0 : ℝ))).getD (0 * 65 + 3) []).getD 0 0 =
      0.5 + 1 / Real.pi * Real.arcsin (Real.sin
        (((omega2Vec 65 4 1 0).getD 0 0 : ℝ) * (2 * Real.pi / ((65 : ℕ) : ℝ) * ((3 : ℕ) : ℝ)) +
          2 * Real.pi * (fun _ => (0 : ℝ)) 0)) :=
  claim1_search_curve_transform 65 4 1 (fun _ => (0 : ℝ)) 0 3 0
    (by decide) (by decide) (by decide) (by decide) (by decide)

/-- Claim C5: for valid input and every random draw, every entry of the
unit-hypercube matrix lies in the closed interval [0, 1]. -/
theorem claim5_entries_in_unit_interval (N M D : ℕ) (rand : ℕ → ℝ) (r j : ℕ)
    (hM : 1 ≤ M) (hN : 4 * M ^ 2 < N) (hD : 1 ≤ D) (hr : r < N * D) (hj : j < D) :
    ((fastX N M D rand).getD r []).getD j 0 ∈ Set.Icc (0 : ℝ) 1 := by
  rw [fastX_getD N M D rand r j hr hj]
  exact gval_mem_Icc _ _ _ _

/-- Witness for C5 at N = 65, M = 4, D = 1, r = 7, j = 0. -/
theorem claim5_entries_in_unit_interval_witness :
    ((fastX 65 4 1 (fun _ => (0 : ℝ))).getD 7 []).getD 0 0 ∈ Set.Icc (0 : ℝ) 1 :=
  claim5_entries_in_unit_interval 65 4 1 (fun _ => (0 : ℝ)) 7 0
    (by decide) (by decide) (by decide) (by decide) (by decide)

/-- Claim C8: whenever a block's rotated frequency at column `j` is 0, the block's
entries in that column are the constant `0.5 + (1/pi) * arcsin(sin(phi_i))`,
independent of the in-block index `k`; no special-casing alters this. -/
theorem claim8_zero_frequency_constant (N M D : ℕ) (rand : ℕ → ℝ) (i k j : ℕ)
    (hN0 : 0 < N) (hi : i < D) (hk : k < N) (hj : j < D)
    (hzero : (omega2Vec N M D i).getD j 0 = 0) :
    ((fastX N M D rand).getD (i * N + k) []).getD j 0 =
      0.5 + 1 / Real.pi * Real.arcsin (Real.sin (2 * Real.pi * rand i)) := by
  rw [fastX_getD N M D rand _ j (blockRow_lt N D i k hi hk) hj,
    blockRow_div N i k hN0 hk, blockRow_mod N i k hk, hzero]
  unfold gval phiOf
  norm_num

/-- Witness for C8 at N = 2, M = 1, D = 1 (an invalid sample size, the only
way a zero frequency can arise), block i = 0, k = 1, j = 0: there
omega = [0], so omega2[0] = 0. -/
theorem claim8_zero_frequency_constant_witness :
    ((fastX 2 1 1 (fun _ => (0 : ℝ))).getD (0 * 2 + 1) []).getD 0 0 =
      0.5 + 1 / Real.pi * Real.arcsin (Real.sin (2 * Real.pi * (fun _ => (0 : ℝ)) 0)) :=
  claim8_zero_frequency_constant 2 1 1 (fun _ => (0 : ℝ)) 0 1 0
    (by decide) (by decide) (by decide) (by decide)
    (by
      have h0 : omega0 2 1 = 0 := by unfold omega0; norm_num [Int.floor_eq_iff]
      have hm : mval 2 1 = 0 := by unfold mval; rw [h0]; norm_num
      have hω : omegaVec 2 1 1 = [0] := by
        unfold omegaVec
        rw [hm, h0]
        norm_num [linspace]
      unfold omega2Vec
      rw [hω]
      norm_num [scatter, idxList])

/-- A matrix, as a list of rows, with the given row and column counts. -/
def matShape (X : List (List ℝ)) (rows cols : ℕ) : Prop :=
  X.length = rows ∧ ∀ row ∈ X, row.length = cols

theorem fastX_shape (N M D : ℕ) (rand : ℕ → ℝ) : matShape (fastX N M D rand) (N * D) D :=
  ⟨fastX_length N M D rand, fastX_row_length N M D rand⟩

theorem scale_samples_shape (X : List (List ℝ)) (bounds : List (ℝ × ℝ)) (rows cols : ℕ)
    (h : matShape X rows cols) (hb : bounds.length = cols) :
    matShape (scale_samples X bounds) rows cols := by
  constructor
  · unfold scale_samples
    rw [List.length_map]
    exact h.1
  · intro row hrow
    rcases List.mem_map.mp hrow with ⟨row0, hrow0, hrw⟩
    rw [← hrw, List.length_zipWith, h.2 row0 hrow0, hb, min_self]

/-- Claim C3: the function fails with the invalid-sample-size error exactly when
N ≤ 4M², for every problem (even a malformed one), every random source and
every behaviour of the external collaborators — the guard is the first thing
evaluated, before the matrix is built, and no later step can produce this
error. -/
theorem claim3_invalid_size_iff
    (cb : Problem → Except String (List ℝ × List ℝ))
    (ls : List (List ℝ) → List ℝ → List ℝ → List String → List (List ℝ))
    (nss : List (List ℝ) → List (ℝ × ℝ) → List String → List (List ℝ))
    (p : Problem) (N M : ℕ) (rand : ℕ → ℝ) :
    sampleWith cb ls nss p N M rand = Except.error SampleError.invalidSize ↔
      N ≤ 4 * M ^ 2 := by
  unfold sampleWith
  split
  case isTrue h =>
    simp [h]
  case isFalse h =>
    simp only [iff_false_intro h, iff_false]
    intro hcontra
    split at hcontra
    · exact Except.noConfusion hcontra
    · split at hcontra
      · exact SampleError.noConfusion (Except.error.inj hcontra)
      · exact Except.noConfusion hcontra

/-- Claim C4: for every valid input, whatever matrix `sample` returns has exactly
N·D rows and D = `problem.num_vars` columns, provided the problem satisfies
the data-model invariant `len(bounds) = num_vars` and the external
collaborators respect their interface contracts (per-column operations that
preserve the matrix shape). -/
theorem claim4_output_shape
    (cb : Problem → Except String (List ℝ × List ℝ))
    (ls : List (List ℝ) → List ℝ → List ℝ → List String → List (List ℝ))
    (nss : List (List ℝ) → List (ℝ × ℝ) → List String → List (List ℝ))
    (p : Problem) (N M : ℕ) (rand : ℕ → ℝ) (Xout : List (List ℝ))
    (hN : 4 * M ^ 2 < N)
    (hb : p.bounds.length = p.num_vars)
    (hls : ∀ X u l d rows cols, matShape X rows cols → matShape (ls X u l d) rows cols)
    (hnss : ∀ X b d rows cols, matShape X rows cols → matShape (nss X b d) rows cols)
    (hok : sampleWith cb ls nss p N M rand = Except.ok Xout) :
    matShape Xout (N * p.num_vars) p.num_vars := by
  simp only [sampleWith] at hok
  rw [if_neg (by omega)] at hok
  by_cases hd : distsFalsy p.dists
  · rw [if_pos hd] at hok
    obtain rfl : scale_samples (fastX N M p.num_vars rand) p.bounds = Xout := by
      simpa using hok
    exact scale_samples_shape _ _ _ _ (fastX_shape N M p.num_vars rand) hb
  · rw [if_neg hd] at hok
    cases hcb : cb p with
    | error msg =>
      rw [hcb] at hok
      exact Except.noConfusion hok
    | ok bnds =>
      rw [hcb] at hok
      obtain rfl : nss (ls (fastX N M p.num_vars rand) bnds.2 bnds.1 (getDists p.dists))
          p.bounds (getDists p.dists) = Xout := by
        simpa using hok
      exact hnss _ _ _ _ _ (hls _ _ _ _ _ _ (fastX_shape N M p.num_vars rand))

/-- Witness for C4: the uniform one-variable problem at N = 65, M = 4, with
identity collaborators. -/
theorem claim4_output_shape_witness :
    matShape (scale_samples (fastX 65 4 1 (fun _ => (0 : ℝ))) [((0 : ℝ), (1 : ℝ))]) (65 * 1) 1 :=
  claim4_output_shape
    (fun _ : Problem => (Except.ok ([], []) : Except String (List ℝ × List ℝ)))
    (fun X _ _ _ => X) (fun X _ _ => X)
    (Problem.mk 1 [((0 : ℝ), (1 : ℝ))] none) 65 4 (fun _ => (0 : ℝ))
    (scale_samples (fastX 65 4 1 (fun _ => (0 : ℝ))) [((0 : ℝ), (1 : ℝ))])
    (by decide) rfl
    (fun _ _ _ _ _ _ h => h) (fun _ _ _ _ _ h => h) rfl

/-- Claim C10: whenever `problem.get('dists')` is falsy — the key absent, `None`,
or an empty sequence — `sample` takes the uniform-scaling path: the result is
the uniformly scaled unit-hypercube matrix, identical for every behaviour of
the bound-checking, range-limiting and inverse-CDF collaborators (they are
never invoked). -/
theorem claim10_falsy_dists_uniform_path
    (cb : Problem → Except String (List ℝ × List ℝ))
    (ls : List (List ℝ) → List ℝ → List ℝ → List String → List (List ℝ))
    (nss : List (List ℝ) → List (ℝ × ℝ) → List String → List (List ℝ))
    (p : Problem) (N M : ℕ) (rand : ℕ → ℝ)
    (hN : 4 * M ^ 2 < N) (hfalsy : distsFalsy p.dists = true) :
    sampleWith cb ls nss p N M rand =
      Except.ok (scale_samples (fastX N M p.num_vars rand) p.bounds) := by
  simp only [sampleWith]
  rw [if_neg (by omega), if_pos hfalsy]

/-- Witness for C10: `dists` present but equal to an empty sequence, N = 65,
M = 4, with arbitrary concrete collaborators. -/
theorem claim10_falsy_dists_uniform_path_witness :
    sampleWith
      (fun _ : Problem => (Except.ok ([], []) : Except String (List ℝ × List ℝ)))
      (fun X _ _ _ => X) (fun X _ _ => X)
      (Problem.mk 1 [((0 : ℝ), (1 : ℝ))] (some (some []))) 65 4 (fun _ => (0 : ℝ)) =
    Except.ok (scale_samples (fastX 65 4 1 (fun _ => (0 : ℝ))) [((0 : ℝ), (1 : ℝ))]) :=
  claim10_falsy_dists_uniform_path
    (fun _ : Problem => (Except.ok ([], []) : Except String (List ℝ × List ℝ)))
    (fun X _ _ _ => X) (fun X _ _ => X)
    (Problem.mk 1 [((0 : ℝ), (1 : ℝ))] (some (some []))) 65 4 (fun _ => (0 : ℝ))
    (by decide) rfl

end FastSampler
